import Mathlib

/-!
Verification development for the global-liquidity-credit-tracker analytics
pipeline.  The Python sources under `src/` are shallowly embedded as Lean
functions: pandas tables become lists of rows or of `(key, value)` pairs,
IEEE doubles become `ℚ` (with `Option ℚ` for NaN / missing cells), calendar
dates become either day counts (`ℕ`) or explicit `(year, month, day)`
records, and filesystem effects become explicit operation traces.  The
theorems at the end of the file settle the frozen claims about the spec.
-/

namespace GLCT

/-- Arithmetic mean of a list of rationals, as in `pandas.Series.mean`
(`sum / count`; division by zero yields 0 in Lean where pandas yields NaN,
which is only reachable for empty input and is guarded at every use site). -/
def list_mean (l : List ℚ) : ℚ := l.sum / l.length

/-- Sample variance with `ddof = 1`, as used by `pandas.Series.std`
(which is `sqrt` of this quantity). -/
def sample_var (l : List ℚ) : ℚ :=
  ((l.map (fun x => (x - list_mean l) ^ 2)).sum) / ((l.length : ℚ) - 1)

/-- Rounding to three decimals (round-half-up), used only to compare exact
renormalized weights against the decimal figures quoted in the spec. -/
def round3 (q : ℚ) : ℚ := ((⌊q * 1000 + 1 / 2⌋ : ℤ) : ℚ) / 1000

/-! ## Transforms (`src/src/indicators/transforms.py`) -/

/-- One output row of `detect_regime`: the (possibly missing) rolling
z-score together with the integer regime label the function assigns. -/
structure RegimeRow where
  zscore : Option ℚ
  regime : ℤ
deriving DecidableEq

/-- Embeds the per-row effect of `transforms.detect_regime` (lines 212-237):
the regime starts at 0, is overwritten with -1 on rows whose zscore
satisfies `zscore < low` and with 1 on rows whose zscore satisfies
`zscore > high`.  A missing zscore (NaN) satisfies neither pandas
comparison, so such rows keep 0. -/
def detect_regime_row (low high : ℚ) (z : Option ℚ) : ℤ :=
  let r0 : ℤ := 0
  let r1 : ℤ :=
    match z with
    | some v => if v < low then -1 else r0
    | none => r0
  match z with
  | some v => if v > high then 1 else r1
  | none => r1

/-- Embeds `transforms.detect_regime` applied to a whole table: the zscore
column is assumed present (in the GLCI pipeline `compute_zscore` has always
been applied first), and a `regime` column is added row by row. -/
def detect_regime (low high : ℚ) (rows : List (Option ℚ)) : List RegimeRow :=
  rows.map (fun z => ⟨z, detect_regime_row low high z⟩)

/-- The consecutive differences `df[date_col].diff()` of a date column,
in days (the leading NaT produced by pandas is simply absent here). -/
def consecutive_diffs : List ℕ → List ℕ
  | a :: b :: rest => (b - a) :: consecutive_diffs (b :: rest)
  | _ => []

/-- The final range classification of `transforms.detect_frequency`
(lines 649-658) applied to the truncated mean gap in days. -/
def freq_of_avg_days (avg : ℕ) : String :=
  if avg ≤ 2 then "D"
  else if avg ≤ 10 then "W"
  else if avg ≤ 45 then "M"
  else if avg ≤ 120 then "Q"
  else "A"

/-- Embeds `transforms.detect_frequency` (lines 634-658): dates are sorted,
fewer than 2 points defaults to "M", otherwise the mean inter-date gap is
taken and truncated to whole days (`Timedelta.days` floors, which on the
mean of natural-number day gaps is natural division), then classified. -/
def detect_frequency (dates : List ℕ) : String :=
  if ((dates.mergeSort (fun a b => decide (a ≤ b))).length < 2) then "M"
  else
    freq_of_avg_days
      ((consecutive_diffs (dates.mergeSort (fun a b => decide (a ≤ b)))).sum /
        (consecutive_diffs (dates.mergeSort (fun a b => decide (a ≤ b)))).length)

/-! ## Storage (`src/src/etl/storage.py`) -/

/-- A filesystem operation issued by the storage layer; `α` is the opaque
payload written (a serialized table or a metadata document).  Paths are
segment lists below the data root. -/
inductive FsOp (α : Type) where
  | mkdirp (path : List String)
  | writeFile (path : List String) (content : α)
  | rename (src dst : List String)
deriving DecidableEq

/-- True exactly on rename operations. -/
def FsOp.isRename {α : Type} : FsOp α → Bool
  | .rename _ _ => true
  | _ => false

/-- Embeds the id sanitization of `DataStorage.save_raw`,
`series_id.replace(":", "_").replace("/", "_")`: both patterns are single
characters, so the two replacements are one character map. -/
def clean_series_id (s : String) : String :=
  String.mk (s.data.map (fun c => if c = ':' ∨ c = '/' then '_' else c))

/-- Embeds `DataStorage.save_raw` (storage.py lines 25-44) as the trace of
filesystem operations it performs: it creates the source directory and then
writes the parquet body directly to its final path with
`df.to_parquet(file_path)`. -/
def save_raw {α : Type} (df : α) (source series_id : String) : List (FsOp α) :=
  [FsOp.mkdirp ["raw", source],
   FsOp.writeFile ["raw", source, clean_series_id series_id ++ ".parquet"] df]

/-- Embeds `DataStorage.save_curated` (storage.py lines 91-117) as its
trace: create the category directory, write the parquet body directly to
its final path, and, when metadata is supplied, write the
`{name}_meta.json` sibling directly to its final path as well (the
`saved_at` stamp is part of the opaque metadata payload). -/
def save_curated {α : Type} (df : α) (category name : String)
    (metadata : Option α) : List (FsOp α) :=
  [FsOp.mkdirp ["curated", category],
   FsOp.writeFile ["curated", category, name ++ ".parquet"] df] ++
  (match metadata with
   | some m => [FsOp.writeFile ["curated", category, name ++ "_meta.json"] m]
   | none => [])

/-- A raw-series row with the provenance columns relevant to appending:
the date key, the `fetched_at` stamp, and the observation value. -/
structure RawRow where
  date : ℕ
  fetched_at : ℕ
  value : ℚ
deriving DecidableEq

/-- Embeds `drop_duplicates(subset=["date"], keep="last")`: a row survives
exactly when no later row of the list carries the same date, and surviving
rows keep their relative order. -/
def dedup_keep_last : List RawRow → List RawRow
  | [] => []
  | r :: rest =>
      (if rest.any (fun s => s.date == r.date) then [] else [r]) ++
        dedup_keep_last rest

/-- Embeds `sort_values("date")`: a stable sort on the date key. -/
def sort_by_date (l : List RawRow) : List RawRow :=
  l.mergeSort (fun a b => decide (a.date ≤ b.date))

/-- Embeds `DataStorage.append_raw` (storage.py lines 55-66): when a stored
series exists, the delta is concatenated after it, duplicates on the date
key are dropped keeping the last concatenated row, and the result is
sorted by date; otherwise the delta is saved as is. -/
def append_raw (existing : Option (List RawRow)) (df : List RawRow) :
    List RawRow :=
  match existing with
  | none => df
  | some ex => sort_by_date (dedup_keep_last (ex ++ df))

/-! ## Dynamic factor model (`src/src/indicators/dynamic_factor.py`) -/

/-- Number of complete rows of the matrix, `len(X.dropna())`. -/
def complete_rows (X : List (List (Option ℚ))) : ℕ :=
  (X.filter (fun row => row.all Option.isSome)).length

/-- Number of missing cells, `X.isna().sum().sum()`. -/
def missing_cells (X : List (List (Option ℚ))) : ℕ :=
  (X.map (fun row => (row.filter Option.isNone).length)).sum

/-- Total number of cells, `X.size` (rows times columns for a rectangular
pandas frame, hence the sum of the row lengths). -/
def matrix_size (X : List (List (Option ℚ))) : ℕ :=
  (X.map List.length).sum

/-- The overall missing fraction computed at the top of
`DynamicFactorModel._choose_method`: `X.isna().sum().sum() / X.size` when
the matrix is nonempty, else 0. -/
def missing_frac (X : List (List (Option ℚ))) : ℚ :=
  if matrix_size X > 0 then (missing_cells X : ℚ) / (matrix_size X : ℚ) else 0

/-- Embeds `DynamicFactorModel._choose_method` (dynamic_factor.py lines
235-256) for `method="auto"`, with the availability of statsmodels and
sklearn passed explicitly: DFM is chosen when enough complete rows remain
(`complete_rows >= max(30, total_rows * 0.5)`), the missing fraction is
strictly positive and at most 0.3, and statsmodels is importable;
otherwise PCA-shrunk when sklearn is importable, then DFM when only
statsmodels is, and plain PCA as the last resort. -/
def choose_method (X : List (List (Option ℚ)))
    (has_statsmodels_dfm has_sklearn : Bool) : String :=
  if (complete_rows X : ℚ) ≥ max 30 ((X.length : ℚ) * (1 / 2)) ∧
      0 < missing_frac X ∧ missing_frac X ≤ 3 / 10 ∧
      has_statsmodels_dfm = true then "dfm"
  else if has_sklearn = true then "pca_shrunk"
  else if has_statsmodels_dfm = true then "dfm"
  else "pca"

/-- The state of a fitted single-factor model just before transform-time
sign adjustment: the loadings stored by the fit (one per retained column)
and the raw factor scores. -/
structure FittedFactorModel where
  loadings : List ℚ
  raw_factors : List ℚ
deriving DecidableEq

/-- Embeds `DynamicFactorModel._adjust_factor_sign` (dynamic_factor.py
lines 480-504) for the single-factor case: when the mean of the stored
loadings is negative the factor column is multiplied by -1.  The stored
loadings themselves are not modified by the method. -/
def adjust_factor_sign (m : FittedFactorModel) (factors : List ℚ) : List ℚ :=
  if list_mean m.loadings < 0 then factors.map (fun x => -x) else factors

/-- Embeds `DynamicFactorModel.get_loadings` (dynamic_factor.py lines
506-552) for the single-factor case: every method branch returns the
loadings exactly as stored by the fit. -/
def get_loadings (m : FittedFactorModel) : List ℚ := m.loadings

/-- Embeds `DynamicFactorModel.transform` for the factor series it
returns: the raw factor scores with `_adjust_factor_sign` applied. -/
def dfm_transform (m : FittedFactorModel) : List ℚ :=
  adjust_factor_sign m m.raw_factors

/-- The union date index produced by `pd.concat(all_factors, axis=1)` in
`combine_factors`: the union of the pillar series dates, sorted. -/
def union_dates (factors : List (String × List (ℕ × Option ℚ))) : List ℕ :=
  (((factors.map (fun nf => nf.2.map Prod.fst)).flatten).dedup).mergeSort
    (fun a b => decide (a ≤ b))

/-- The cell of an aligned pillar column at a date: `none` when the date is
absent from that pillar's index (reindexing inserts NaN), otherwise the
stored cell (which may itself be NaN). -/
def aligned_cell (l : List (ℕ × Option ℚ)) (d : ℕ) : Option (Option ℚ) :=
  (l.find? (fun p => p.1 == d)).map Prod.snd

/-- The value `combined_df[name].fillna(0)` takes at a date: missing cells
of the aligned column, whether from reindexing or stored NaN, become 0. -/
def filled_value (l : List (ℕ × Option ℚ)) (d : ℕ) : ℚ :=
  match aligned_cell l d with
  | some (some v) => v
  | _ => 0

/-- Weight normalization at the top of `combine_factors`
(dynamic_factor.py lines 648-650): every weight is divided by the total. -/
def normalize_weights (weights : List (String × ℚ)) : List (String × ℚ) :=
  weights.map (fun kv => (kv.1, kv.2 / (weights.map Prod.snd).sum))

/-- Lookup of a pillar's weight, `name in weights` plus `weights[name]`. -/
def lookup_weight (weights : List (String × ℚ)) (name : String) : Option ℚ :=
  (weights.find? (fun kv => kv.1 == name)).map Prod.snd

/-- Embeds the aligned weighted sum of `combine_factors` (dynamic_factor.py
lines 642-669): weights are normalized once, the pillar series are aligned
on the union of their dates, and at every date of the union each pillar
contributes `fillna(0)` of its aligned cell times its normalized weight;
pillars absent from the weight dict are skipped.  The optional
`normalize=True` rescaling that follows (lines 671-674) is an affine map
of the value column and leaves the date index untouched. -/
def combine_factors (factors : List (String × List (ℕ × Option ℚ)))
    (weights : List (String × ℚ)) : List (ℕ × ℚ) :=
  (union_dates factors).map (fun d =>
    (d, (factors.map (fun nf =>
          match lookup_weight (normalize_weights weights) nf.1 with
          | some w => filled_value nf.2 d * w
          | none => 0)).sum))

/-! ## GLCI computer (`src/src/indicators/glci.py`, `factors.py`) -/

/-- Embeds `factors.get_pillar_weights` (factors.py lines 416-431): the
configured per-pillar weights, normalized to sum to 1 when the total is
positive. -/
def get_pillar_weights (cfg : List (String × ℚ)) : List (String × ℚ) :=
  if (cfg.map Prod.snd).sum > 0 then
    cfg.map (fun kv => (kv.1, kv.2 / (cfg.map Prod.snd).sum))
  else cfg

/-- Embeds the pillar-failure handling of `GLCIComputer.compute` (glci.py
lines 165-179): with no surviving pillar the run aborts
(`raise ValueError`); when some but not all pillars survived, the weights
are restricted to the survivors and divided by their total (a zero total
would raise `ZeroDivisionError` in Python); when every pillar survived the
weights are left unchanged. -/
def adjust_pillar_weights (pillar_weights : List (String × ℚ))
    (survivors : List String) : Except String (List (String × ℚ)) :=
  if survivors.isEmpty then
    Except.error "No pillar factors could be computed"
  else if survivors.length < pillar_weights.length then
    if ((pillar_weights.filter (fun kv => survivors.contains kv.1)).map
        Prod.snd).sum = 0 then
      Except.error "ZeroDivisionError"
    else
      Except.ok ((pillar_weights.filter (fun kv => survivors.contains kv.1)).map
        (fun kv => (kv.1,
          kv.2 / ((pillar_weights.filter
            (fun kv2 => survivors.contains kv2.1)).map Prod.snd).sum)))
  else Except.ok pillar_weights

/-! ## Risk metrics (`src/src/indicators/risk_metrics.py`) -/

/-- One row of the merged table inside
`RiskMetricsComputer._compute_asset_metrics` after
`dropna(subset=["return"])`: the daily simple return, the as-of merged
daily risk-free rate (filled with 0 when unavailable), and the as-of
merged regime label. -/
structure MergedRow where
  ret : ℚ
  daily_rf : ℚ
  regime_label : String
deriving DecidableEq

/-- The excess return column, `return - daily_rf`. -/
def excess_return (r : MergedRow) : ℚ := r.ret - r.daily_rf

/-- The rows of the merged table belonging to one regime label,
`merged[merged["regime_label"] == regime]`. -/
def regime_rows (rows : List MergedRow) (regime : String) : List MergedRow :=
  rows.filter (fun r => r.regime_label == regime)

/-- Sample standard deviation as pandas computes it (`ddof = 1`). -/
noncomputable def sample_std (l : List ℚ) : ℝ := Real.sqrt (sample_var l)

/-- Embeds `RiskMetricsComputer._compute_sharpe` (risk_metrics.py lines
314-326): 0 for fewer than 20 observations or zero standard deviation,
otherwise `mean / std * sqrt(252)`.  The input rows carry no NaN (the
caller dropped NaN returns), so the pandas `dropna` is the identity here. -/
noncomputable def compute_sharpe (l : List ℚ) : ℝ :=
  if l.length < 20 then 0
  else if sample_std l = 0 then 0
  else (list_mean l : ℝ) / sample_std l * Real.sqrt 252

/-- Embeds the per-regime Sharpe of
`RiskMetricsComputer._compute_asset_metrics` (risk_metrics.py lines
275-288): the statistic is present only when the in-regime row count is
strictly greater than 20, and is then `_compute_sharpe` of the in-regime
excess returns. -/
noncomputable def sharpe_by_regime (rows : List MergedRow) (regime : String) :
    Option ℝ :=
  if (regime_rows rows regime).length > 20 then
    some (compute_sharpe ((regime_rows rows regime).map excess_return))
  else none

/-- Embeds the per-regime annualized return of the same loop:
`mean(return) * 252 * 100` when the in-regime count exceeds 20. -/
def return_by_regime (rows : List MergedRow) (regime : String) : Option ℚ :=
  if (regime_rows rows regime).length > 20 then
    some (list_mean ((regime_rows rows regime).map MergedRow.ret) * 252 * 100)
  else none

/-- Embeds the per-regime annualized volatility of the same loop:
`std(return) * sqrt(252) * 100` when the in-regime count exceeds 20. -/
noncomputable def volatility_by_regime (rows : List MergedRow)
    (regime : String) : Option ℝ :=
  if (regime_rows rows regime).length > 20 then
    some (sample_std ((regime_rows rows regime).map MergedRow.ret) *
      Real.sqrt 252 * 100)
  else none

/-! ## Resampling (`src/src/indicators/transforms.py`, `resample_to_frequency`)

The resampler labels every input date with the end of the period containing
it (pandas frequency aliases `D`, `W-FRI`, `ME`, `QE`, `YE`), aggregates
each non-empty bin, and drops rows whose aggregate is NaN.  Calendar dates
are embedded as explicit proleptic-Gregorian `(year, month, day)` records. -/

/-- A calendar day, proleptic Gregorian, as carried by a pandas
`DatetimeIndex` at midnight. -/
structure Date where
  year : ℕ
  month : ℕ
  day : ℕ
deriving DecidableEq

/-- Gregorian leap-year rule. -/
def isLeap (y : ℕ) : Bool :=
  (y % 4 == 0 && y % 100 != 0) || y % 400 == 0

/-- Number of days in a month of a given year. -/
def daysInMonth (y m : ℕ) : ℕ :=
  if m = 2 then (if isLeap y then 29 else 28)
  else if m = 4 ∨ m = 6 ∨ m = 9 ∨ m = 11 then 30
  else 31

/-- Days elapsed in year `y` before month `m` begins. -/
def daysBeforeMonth (y m : ℕ) : ℕ :=
  (match m with
   | 1 => 0 | 2 => 31 | 3 => 59 | 4 => 90 | 5 => 120 | 6 => 151
   | 7 => 181 | 8 => 212 | 9 => 243 | 10 => 273 | 11 => 304 | _ => 334) +
  (if 3 ≤ m ∧ isLeap y = true then 1 else 0)

/-- Day count of a date from the epoch 0001-01-01 (day 0, a Monday in the
proleptic Gregorian calendar, so a date is a Friday exactly when its day
count is 4 modulo 7). -/
def toDays (d : Date) : ℕ :=
  365 * (d.year - 1) + (d.year - 1) / 4 - (d.year - 1) / 100 +
    (d.year - 1) / 400 + daysBeforeMonth d.year d.month + (d.day - 1)

/-- A well-formed calendar date. -/
def Date.Valid (d : Date) : Prop :=
  1 ≤ d.year ∧ 1 ≤ d.month ∧ d.month ≤ 12 ∧ 1 ≤ d.day ∧
    d.day ≤ daysInMonth d.year d.month

instance (d : Date) : Decidable d.Valid := by
  unfold Date.Valid
  infer_instance

/-- The calendar successor of a date. -/
def nextDay (d : Date) : Date :=
  if d.day < daysInMonth d.year d.month then ⟨d.year, d.month, d.day + 1⟩
  else if d.month < 12 then ⟨d.year, d.month + 1, 1⟩
  else ⟨d.year + 1, 1, 1⟩

/-- Pandas period label under alias `ME`: the last day of the month. -/
def monthEnd (d : Date) : Date :=
  ⟨d.year, d.month, daysInMonth d.year d.month⟩

/-- The closing month of the calendar quarter containing month `m`. -/
def quarterEndMonth (m : ℕ) : ℕ := 3 * ((m + 2) / 3)

/-- Pandas period label under alias `QE`: the last day of the quarter. -/
def quarterEnd (d : Date) : Date :=
  ⟨d.year, quarterEndMonth d.month, daysInMonth d.year (quarterEndMonth d.month)⟩

/-- Pandas period label under alias `YE`: December 31. -/
def yearEnd (d : Date) : Date := ⟨d.year, 12, 31⟩

/-- Days until the next Friday on or after the date (0 on a Friday). -/
def fridayOffset (d : Date) : ℕ := (11 - toDays d % 7) % 7

/-- Pandas period label under alias `W-FRI`: the Friday closing the week
that contains the date, i.e. the first Friday on or after it. -/
def weekEndFriday (d : Date) : Date := nextDay^[fridayOffset d] d

/-- The five target frequencies of `resample_to_frequency`. -/
inductive Freq where
  | D | W | M | Q | A
deriving DecidableEq

/-- The period-end label a date receives under each frequency alias of the
`freq_map` in `resample_to_frequency` (`D`, `W-FRI`, `ME`, `QE`, `YE`). -/
def periodEnd : Freq → Date → Date
  | .D, d => d
  | .W, d => weekEndFriday d
  | .M, d => monthEnd d
  | .Q, d => quarterEnd d
  | .A, d => yearEnd d

/-- The sorted index of period-end labels produced by
`df[value_col].resample(pandas_freq)`: each input date is binned under its
period-end label; bins that received no input row never survive the
trailing `dropna()`, so only labels of non-empty bins are kept. -/
def resample_keys (l : List (Date × Option ℚ)) (f : Freq) : List Date :=
  ((l.map (fun p => periodEnd f p.1)).dedup).mergeSort
    (fun a b => decide (toDays a ≤ toDays b))

/-- The aggregate of one bin under `agg_method="last"`: the last non-NaN
value, in row order, among the rows binned under label `k`
(`Resampler.last` skips NaN); `none` when the bin holds no value. -/
def bin_last (l : List (Date × Option ℚ)) (f : Freq) (k : Date) : Option ℚ :=
  ((l.filter (fun p => periodEnd f p.1 == k)).filterMap Prod.snd).getLast?

/-- Embeds `resample_to_frequency` with `agg_method="last"` (transforms.py
lines 7-49), the aggregation used throughout the pipeline: each input row
is binned by its period-end label, each bin aggregates to its last
non-NaN value in row order, bins whose aggregate is NaN are removed by the
trailing `dropna()`, and the output is indexed by the sorted period-end
labels. -/
def resample_last (l : List (Date × Option ℚ)) (f : Freq) : List (Date × ℚ) :=
  (resample_keys l f).filterMap
    (fun k => (bin_last l f k).map (fun v => (k, v)))

/-- Reinterprets a resampled table (all values present) as an input table,
as happens when `resample_to_frequency` is applied a second time. -/
def lift_table (l : List (Date × ℚ)) : List (Date × Option ℚ) :=
  l.map (fun p => (p.1, some p.2))

/-- The GLCI pillar configuration weights, liquidity/credit/stress
0.4/0.3/0.3, as declared for `global_liquidity_credit_index`. -/
def glci_cfg_weights : List (String × ℚ) :=
  [("liquidity", 2 / 5), ("credit", 3 / 10), ("stress", 3 / 10)]

end GLCT

unseal List.merge List.mergeSort Rat.add Rat.sub Rat.mul Rat.inv

namespace GLCT

/-- The sum of a list divided elementwise equals the divided sum. -/
theorem list_sum_map_div (l : List ℚ) (c : ℚ) :
    (l.map (fun x => x / c)).sum = l.sum / c := by
  induction l with
  | nil => simp
  | cons a t ih => simp [ih, add_div]

/-- Row-level characterization of `detect_regime` at the GLCI thresholds:
the three clauses of the regime invariant, established by case analysis
on the strict comparisons of the source. -/
theorem detect_regime_row_spec (z : Option ℚ) :
    (detect_regime_row (-1) 1 z = -1 ↔ ∃ v, z = some v ∧ v < -1) ∧
    (detect_regime_row (-1) 1 z = 1 ↔ ∃ v, z = some v ∧ v > 1) ∧
    ((z = none ∨ ∃ v, z = some v ∧ -1 ≤ v ∧ v ≤ 1) →
      detect_regime_row (-1) 1 z = 0) := by
  cases z with
  | none => simp [detect_regime_row]
  | some v =>
      have hval : detect_regime_row (-1) 1 (some v) =
          if v > 1 then 1 else if v < -1 then -1 else 0 := rfl
      rw [hval]
      by_cases h1 : v < -1
      · have h2 : ¬ v > 1 := by linarith
        rw [if_neg h2, if_pos h1]
        refine ⟨iff_of_true rfl ⟨v, rfl, h1⟩, ?_, ?_⟩
        · refine iff_of_false (by decide) ?_
          rintro ⟨w, hw, hgt⟩
          rw [Option.some.injEq] at hw
          subst hw
          linarith
        · rintro (hnone | ⟨w, hw, hge, hle⟩)
          · exact absurd hnone (by simp)
          · rw [Option.some.injEq] at hw
            subst hw
            linarith
      · by_cases h2 : v > 1
        · rw [if_pos h2]
          refine ⟨?_, iff_of_true rfl ⟨v, rfl, h2⟩, ?_⟩
          · refine iff_of_false (by decide) ?_
            rintro ⟨w, hw, hlt⟩
            rw [Option.some.injEq] at hw
            subst hw
            linarith
          · rintro (hnone | ⟨w, hw, hge, hle⟩)
            · exact absurd hnone (by simp)
            · rw [Option.some.injEq] at hw
              subst hw
              linarith
        · rw [if_neg h2, if_neg h1]
          refine ⟨?_, ?_, fun _ => rfl⟩
          · refine iff_of_false (by decide) ?_
            rintro ⟨w, hw, hlt⟩
            rw [Option.some.injEq] at hw
            subst hw
            exact h1 hlt
          · refine iff_of_false (by decide) ?_
            rintro ⟨w, hw, hgt⟩
            rw [Option.some.injEq] at hw
            subst hw
            exact h2 hgt

/-- C1: for every row produced by regime classification with thresholds
(-1, +1) as used for GLCI records, the regime label is -1 iff the zscore
is present and strictly below -1, is +1 iff the zscore is present and
strictly above +1, and is 0 in every other case, including a missing
zscore. -/
theorem detect_regime_glci_spec (rows : List (Option ℚ)) (r : RegimeRow)
    (hr : r ∈ detect_regime (-1) 1 rows) :
    (r.regime = -1 ↔ ∃ v, r.zscore = some v ∧ v < -1) ∧
    (r.regime = 1 ↔ ∃ v, r.zscore = some v ∧ v > 1) ∧
    ((r.zscore = none ∨ ∃ v, r.zscore = some v ∧ -1 ≤ v ∧ v ≤ 1) →
      r.regime = 0) := by
  rcases List.mem_map.1 hr with ⟨z, _, rfl⟩
  exact detect_regime_row_spec z

/-- C1 witness: the concrete zscore -2 is classified -1, and the three
clauses of the specification hold for that row. -/
theorem detect_regime_glci_spec_witness :
    ((⟨some (-2 : ℚ), -1⟩ : RegimeRow) ∈
        detect_regime (-1) 1 [some (-2 : ℚ), some 0, none]) ∧
    (((⟨some (-2 : ℚ), -1⟩ : RegimeRow).regime = -1 ↔
        ∃ v, (⟨some (-2 : ℚ), -1⟩ : RegimeRow).zscore = some v ∧ v < -1) ∧
      ((⟨some (-2 : ℚ), -1⟩ : RegimeRow).regime = 1 ↔
        ∃ v, (⟨some (-2 : ℚ), -1⟩ : RegimeRow).zscore = some v ∧ v > 1) ∧
      (((⟨some (-2 : ℚ), -1⟩ : RegimeRow).zscore = none ∨
          ∃ v, (⟨some (-2 : ℚ), -1⟩ : RegimeRow).zscore = some v ∧
            -1 ≤ v ∧ v ≤ 1) →
        (⟨some (-2 : ℚ), -1⟩ : RegimeRow).regime = 0)) :=
  ⟨by decide, detect_regime_glci_spec [some (-2 : ℚ), some 0, none] _ (by decide)⟩

/-- C3: evaluated on a fitted model whose stored loadings have strictly
negative mean, `_adjust_factor_sign` negates the factor series, while
`get_loadings` still returns the unmodified loadings, whose mean remains
negative.  The code therefore violates the documented invariant that
loadings returned after fitting satisfy mean >= 0. -/
theorem adjust_factor_sign_only_flips_factor :
    get_loadings ⟨[-1, -1 / 2], [1, 2]⟩ = [-1, -1 / 2] ∧
    list_mean (get_loadings ⟨[-1, -1 / 2], [1, 2]⟩) < 0 ∧
    dfm_transform ⟨[-1, -1 / 2], [1, 2]⟩ = [-1, -2] := by decide

/-- Helper: the auto selection takes the DFM branch exactly under the
completeness and missing-fraction conditions of `_choose_method`. -/
theorem choose_method_eq_dfm (X : List (List (Option ℚ)))
    (hc : (complete_rows X : ℚ) ≥ max 30 ((X.length : ℚ) * (1 / 2)) ∧
      0 < missing_frac X ∧ missing_frac X ≤ 3 / 10) :
    choose_method X true true = "dfm" := by
  unfold choose_method
  rw [if_pos ⟨hc.1, hc.2.1, hc.2.2, rfl⟩]

/-- Helper: outside the DFM conditions the auto selection with both
dependencies available returns the PCA-shrunk method. -/
theorem choose_method_eq_pca_shrunk (X : List (List (Option ℚ)))
    (hc : ¬ ((complete_rows X : ℚ) ≥ max 30 ((X.length : ℚ) * (1 / 2)) ∧
      0 < missing_frac X ∧ missing_frac X ≤ 3 / 10)) :
    choose_method X true true = "pca_shrunk" := by
  unfold choose_method
  rw [if_neg (fun hcon => hc ⟨hcon.1, hcon.2.1, hcon.2.2.1⟩), if_pos rfl]

/-- C4 counterexample: a 30-row two-column matrix with no missing cell at
all satisfies the claim's completeness and missing-fraction conditions,
yet auto selection returns PCA-shrunk, because `_choose_method` requires
the missing fraction to be strictly positive for the DFM branch. -/
theorem choose_method_no_missing_counterexample :
    choose_method (List.replicate 30 [some (0 : ℚ), some 1]) true true =
      "pca_shrunk" ∧
    (complete_rows (List.replicate 30 [some (0 : ℚ), some 1]) : ℚ) ≥
      max 30 (((List.replicate 30 [some (0 : ℚ), some 1]).length : ℚ) * (1 / 2)) ∧
    missing_frac (List.replicate 30 [some (0 : ℚ), some 1]) = 0 ∧
    ("pca_shrunk" : String) ≠ "dfm" := by decide

/-- C4 amended: with both statsmodels and sklearn available, auto
selection picks DFM exactly when the complete rows reach
max(30, half the rows) and the missing fraction is strictly positive and
at most 0.3; in every other case it picks PCA-shrunk.  Plain PCA is the
fallback when neither dependency is available. -/
theorem choose_method_auto_spec (X : List (List (Option ℚ))) :
    (choose_method X true true = "dfm" ↔
      ((complete_rows X : ℚ) ≥ max 30 ((X.length : ℚ) * (1 / 2)) ∧
        0 < missing_frac X ∧ missing_frac X ≤ 3 / 10)) ∧
    (choose_method X true true = "dfm" ∨
      choose_method X true true = "pca_shrunk") ∧
    choose_method X false false = "pca" := by
  refine ⟨?_, ?_, by simp [choose_method]⟩
  · by_cases hc : (complete_rows X : ℚ) ≥ max 30 ((X.length : ℚ) * (1 / 2)) ∧
        0 < missing_frac X ∧ missing_frac X ≤ 3 / 10
    · rw [choose_method_eq_dfm X hc]
      exact iff_of_true rfl hc
    · rw [choose_method_eq_pca_shrunk X hc]
      exact iff_of_false (by decide) hc
  · by_cases hc : (complete_rows X : ℚ) ≥ max 30 ((X.length : ℚ) * (1 / 2)) ∧
        0 < missing_frac X ∧ missing_frac X ≤ 3 / 10
    · exact Or.inl (choose_method_eq_dfm X hc)
    · exact Or.inr (choose_method_eq_pca_shrunk X hc)

/-- C2 counterexample: the traces of `save_curated` (body and metadata
sibling) and of `save_raw` write directly to the final artifact path and
contain no rename at all, so the writes are not temp-file plus rename. -/
theorem save_write_direct_counterexample :
    (FsOp.writeFile ["curated", "indices", "glci.parquet"] (0 : ℕ) ∈
        save_curated (0 : ℕ) "indices" "glci" (some 1)) ∧
    (FsOp.writeFile ["curated", "indices", "glci_meta.json"] (1 : ℕ) ∈
        save_curated (0 : ℕ) "indices" "glci" (some 1)) ∧
    (∀ op ∈ save_curated (0 : ℕ) "indices" "glci" (some 1),
        op.isRename = false) ∧
    (FsOp.writeFile ["raw", "fred", "WM2NS.parquet"] (0 : ℕ) ∈
        save_raw (0 : ℕ) "fred" "WM2NS") ∧
    (∀ op ∈ save_raw (0 : ℕ) "fred" "WM2NS", op.isRename = false) := by decide

/-- C2 amended: for every payload and name, `save_curated` writes the
parquet body (and, when given, the metadata sibling) directly to its final
path, `save_raw` writes the sanitized raw path directly, and neither trace
contains any rename operation. -/
theorem save_write_trace_spec {α : Type} (df : α)
    (source series_id category name : String) (metadata : Option α) :
    (FsOp.writeFile ["curated", category, name ++ ".parquet"] df ∈
        save_curated df category name metadata) ∧
    (∀ m, metadata = some m →
        FsOp.writeFile ["curated", category, name ++ "_meta.json"] m ∈
          save_curated df category name metadata) ∧
    (∀ op ∈ save_curated df category name metadata, op.isRename = false) ∧
    (FsOp.writeFile ["raw", source, clean_series_id series_id ++ ".parquet"]
        df ∈ save_raw df source series_id) ∧
    (∀ op ∈ save_raw df source series_id, op.isRename = false) := by
  refine ⟨?_, ?_, ?_, ?_, ?_⟩
  · cases metadata <;> simp [save_curated]
  · rintro m rfl
    simp [save_curated]
  · intro op hop
    cases metadata <;> simp [save_curated] at hop <;>
      rcases hop with rfl | rfl | rfl <;> rfl
  · simp [save_raw]
  · intro op hop
    simp [save_raw] at hop
    rcases hop with rfl | rfl <;> rfl

/-- C2 witness for the amended trace description, at a concrete payload. -/
theorem save_write_trace_spec_witness :
    FsOp.writeFile ["curated", "indices", "glci_meta.json"] (7 : ℕ) ∈
      save_curated (3 : ℕ) "indices" "glci" (some 7) :=
  (save_write_trace_spec (3 : ℕ) "fred" "WM2NS" "indices" "glci"
    (some 7)).2.1 7 rfl

/-- C7: when some but not all pillars survive, `GLCIComputer.compute`
restricts the configured weights to the survivors and divides by their
total, so the resulting weights mention only surviving pillars and sum to
1; with no surviving pillar the run aborts with the fatal
`No pillar factors could be computed` error. -/
theorem glci_weight_redistribution (pw : List (String × ℚ))
    (survivors : List String)
    (hne : survivors ≠ [])
    (hlt : survivors.length < pw.length)
    (htot : ((pw.filter (fun kv => survivors.contains kv.1)).map
      Prod.snd).sum ≠ 0) :
    adjust_pillar_weights pw survivors =
      Except.ok ((pw.filter (fun kv => survivors.contains kv.1)).map
        (fun kv => (kv.1,
          kv.2 / ((pw.filter (fun kv2 => survivors.contains kv2.1)).map
            Prod.snd).sum))) ∧
    (∀ w, adjust_pillar_weights pw survivors = Except.ok w →
        (w.map Prod.snd).sum = 1 ∧ ∀ kv ∈ w, survivors.contains kv.1 = true) ∧
    (∀ pw2 : List (String × ℚ), adjust_pillar_weights pw2 [] =
        Except.error "No pillar factors could be computed") := by
  have hemp : survivors.isEmpty = false := by
    cases survivors with
    | nil => exact absurd rfl hne
    | cons a t => rfl
  have hmain : adjust_pillar_weights pw survivors =
      Except.ok ((pw.filter (fun kv => survivors.contains kv.1)).map
        (fun kv => (kv.1,
          kv.2 / ((pw.filter (fun kv2 => survivors.contains kv2.1)).map
            Prod.snd).sum))) := by
    unfold adjust_pillar_weights
    rw [hemp]
    rw [if_neg (by simp)]
    rw [if_pos hlt, if_neg htot]
  refine ⟨hmain, ?_, ?_⟩
  · intro w hw
    rw [hmain] at hw
    rw [Except.ok.injEq] at hw
    subst hw
    constructor
    · rw [List.map_map]
      have hfun : (Prod.snd ∘ fun kv : String × ℚ => (kv.1,
          kv.2 / ((pw.filter (fun kv2 => survivors.contains kv2.1)).map
            Prod.snd).sum)) =
          ((fun x => x / ((pw.filter (fun kv2 => survivors.contains kv2.1)).map
            Prod.snd).sum) ∘ Prod.snd) := rfl
      rw [hfun, ← List.map_map, list_sum_map_div]
      exact div_self htot
    · intro kv hkv
      rcases List.mem_map.1 hkv with ⟨kv0, hkv0, rfl⟩
      exact (List.mem_filter.1 hkv0).2
  · intro pw2
    rfl

/-- C7 witness: with the configured 0.4/0.3/0.3 weights and the stress
pillar failing, the surviving liquidity and credit weights are exactly
4/7 and 3/7, which round to the 0.571 and 0.429 quoted by the spec. -/
theorem glci_weight_redistribution_witness :
    adjust_pillar_weights (get_pillar_weights glci_cfg_weights)
        ["liquidity", "credit"] =
      Except.ok [("liquidity", (4 : ℚ) / 7), ("credit", (3 : ℚ) / 7)] ∧
    round3 (4 / 7) = 571 / 1000 ∧ round3 (3 / 7) = 429 / 1000 :=
  ⟨((glci_weight_redistribution (get_pillar_weights glci_cfg_weights)
      ["liquidity", "credit"] (by decide) (by decide) (by decide)).1).trans
      (congrArg Except.ok (by decide)),
   by decide, by decide⟩

/-- Per-date characterization of `drop_duplicates(subset=["date"],
keep="last")`: after deduplication the rows at a given date are exactly
the last row of the input carrying that date. -/
theorem dedup_keep_last_filter (l : List RawRow) (d : ℕ) :
    (dedup_keep_last l).filter (fun r => r.date == d) =
      (((l.filter (fun r => r.date == d)).getLast?).toList) := by
  induction l with
  | nil => simp [dedup_keep_last]
  | cons r rest ih =>
      by_cases hdup : rest.any (fun s => s.date == r.date) = true
      · have hstep : dedup_keep_last (r :: rest) = dedup_keep_last rest := by
          simp [dedup_keep_last, hdup]
        by_cases hd : r.date = d
        · have hne2 : rest.filter (fun s => s.date == d) ≠ [] := by
            rcases List.any_eq_true.mp hdup with ⟨s, hs, hsd⟩
            have hmem : s ∈ rest.filter (fun s => s.date == d) :=
              List.mem_filter.mpr ⟨hs, by
                rw [beq_iff_eq] at hsd ⊢
                rw [hsd, hd]⟩
            exact List.ne_nil_of_mem hmem
          rcases List.exists_cons_of_ne_nil hne2 with ⟨b, t, hbt⟩
          rw [hstep, ih, List.filter_cons_of_pos (by rw [beq_iff_eq]; exact hd)]
          rw [hbt, List.getLast?_cons_cons]
        · rw [hstep, ih, List.filter_cons_of_neg (by rw [beq_iff_eq]; exact hd)]
      · have hstep : dedup_keep_last (r :: rest) = r :: dedup_keep_last rest := by
          simp [dedup_keep_last, hdup]
        have hnodup : ∀ s ∈ rest, s.date ≠ r.date := by
          intro s hs hc
          exact hdup (List.any_eq_true.mpr
            ⟨s, hs, by rw [beq_iff_eq]; exact hc⟩)
        by_cases hd : r.date = d
        · have hnil : rest.filter (fun s => s.date == d) = [] := by
            rw [List.filter_eq_nil_iff]
            intro s hs
            rw [beq_iff_eq, ← hd]
            exact hnodup s hs
          have hnil2 : (dedup_keep_last rest).filter
              (fun s => s.date == d) = [] := by
            rw [ih, hnil]
            rfl
          rw [hstep, List.filter_cons_of_pos (by rw [beq_iff_eq]; exact hd),
            List.filter_cons_of_pos (by rw [beq_iff_eq]; exact hd), hnil2, hnil]
          rfl
        · rw [hstep, List.filter_cons_of_neg (by rw [beq_iff_eq]; exact hd),
            List.filter_cons_of_neg (by rw [beq_iff_eq]; exact hd), ih]

/-- Deduplication only keeps rows of the input. -/
theorem dedup_keep_last_subset (l : List RawRow) :
    ∀ r ∈ dedup_keep_last l, r ∈ l := by
  induction l with
  | nil => simp [dedup_keep_last]
  | cons a rest ih =>
      intro r hr
      simp only [dedup_keep_last] at hr
      rcases List.mem_append.1 hr with h | h
      · by_cases hc : rest.any (fun s => s.date == a.date) = true
        · rw [if_pos hc] at h
          exact absurd h (List.not_mem_nil r)
        · rw [if_neg hc] at h
          rcases List.mem_singleton.1 h with rfl
          exact List.mem_cons_self _ _
      · exact List.mem_cons_of_mem a (ih r h)

/-- C6 counterexample: appending a delta whose `fetched_at` (5) is earlier
than the stored row's (10) at the same date still keeps the delta row and
discards the stored one, because `keep="last"` selects the last
concatenated row regardless of `fetched_at`. -/
theorem append_raw_keeps_delta_counterexample :
    append_raw (some [(⟨0, 10, 1⟩ : RawRow)]) [(⟨0, 5, 2⟩ : RawRow)] =
      [(⟨0, 5, 2⟩ : RawRow)] ∧
    (⟨0, 10, 1⟩ : RawRow) ∉
      append_raw (some [(⟨0, 10, 1⟩ : RawRow)]) [(⟨0, 5, 2⟩ : RawRow)] ∧
    (5 : ℕ) < 10 := by decide

/-- C6 amended: `append_raw` on an existing series returns the
concatenation of the existing rows and the delta, deduplicated on the date
key keeping for each date the last row in concatenation order (the
`fetched_at` column is never consulted), sorted by date; every output row
comes from the input, and appending to a missing series stores the delta
as is. -/
theorem append_raw_spec (ex df : List RawRow) :
    (∀ d : ℕ, (append_raw (some ex) df).filter (fun r => r.date == d) =
        (((ex ++ df).filter (fun r => r.date == d)).getLast?).toList) ∧
    List.Pairwise (fun a b : RawRow => a.date ≤ b.date)
      (append_raw (some ex) df) ∧
    (∀ r ∈ append_raw (some ex) df, r ∈ ex ++ df) ∧
    append_raw none df = df := by
  refine ⟨?_, ?_, ?_, rfl⟩
  · intro d
    have hperm : ((append_raw (some ex) df).filter
        (fun r => r.date == d)).Perm
        ((dedup_keep_last (ex ++ df)).filter (fun r => r.date == d)) :=
      (List.mergeSort_perm (dedup_keep_last (ex ++ df)) _).filter _
    rw [dedup_keep_last_filter] at hperm
    cases hcase : ((ex ++ df).filter (fun r => r.date == d)).getLast? with
    | none =>
        rw [hcase] at hperm
        exact (List.Perm.nil_eq hperm.symm).symm
    | some a =>
        rw [hcase] at hperm
        exact List.perm_singleton.1 hperm
  · have hp := @List.sorted_mergeSort RawRow
      (fun a b => decide (a.date ≤ b.date))
      (fun a b c hab hbc => by
        rw [decide_eq_true_eq] at hab hbc ⊢
        exact le_trans hab hbc)
      (fun a b => by
        rcases Nat.le_total a.date b.date with h | h <;> simp [h])
      (dedup_keep_last (ex ++ df))
    exact hp.imp (fun h => by rwa [decide_eq_true_eq] at h)
  · intro r hr
    exact dedup_keep_last_subset _ r (List.mem_mergeSort.1 hr)

/-- The diff column has one entry fewer than the date column. -/
theorem consecutive_diffs_length (l : List ℕ) :
    (consecutive_diffs l).length = l.length - 1 := by
  induction l with
  | nil => rfl
  | cons a t ih =>
      cases t with
      | nil => rfl
      | cons b t2 =>
          show ((b - a) :: consecutive_diffs (b :: t2)).length = _
          rw [List.length_cons, ih]
          simp

/-- A sorted list starts no later than it ends. -/
theorem head_le_getLastD (t : List ℕ) (a : ℕ)
    (hs : List.Sorted (· ≤ ·) (a :: t)) : a ≤ (a :: t).getLastD 0 := by
  induction t generalizing a with
  | nil => simp
  | cons b t2 ih =>
      have hab : a ≤ b := (List.sorted_cons.1 hs).1 b (List.mem_cons_self _ _)
      have hb := ih b (List.sorted_cons.1 hs).2
      calc a ≤ b := hab
        _ ≤ (b :: t2).getLastD 0 := hb
        _ = (a :: b :: t2).getLastD 0 := by
            rw [List.getLastD_cons, List.getLastD_cons, List.getLastD_cons]

/-- On a sorted date column the day gaps telescope: their sum is the
distance from the first to the last date. -/
theorem consecutive_diffs_sum (t : List ℕ) (a : ℕ)
    (hs : List.Sorted (· ≤ ·) (a :: t)) :
    (consecutive_diffs (a :: t)).sum = (a :: t).getLastD 0 - a := by
  induction t generalizing a with
  | nil => simp [consecutive_diffs]
  | cons b t2 ih =>
      have hab : a ≤ b := (List.sorted_cons.1 hs).1 b (List.mem_cons_self _ _)
      have hbl : b ≤ (b :: t2).getLastD 0 :=
        head_le_getLastD t2 b (List.sorted_cons.1 hs).2
      have hsum := ih b (List.sorted_cons.1 hs).2
      show ((b - a) :: consecutive_diffs (b :: t2)).sum = _
      rw [List.sum_cons, hsum]
      rw [show (a :: b :: t2).getLastD 0 = (b :: t2).getLastD 0 by
        rw [List.getLastD_cons, List.getLastD_cons, List.getLastD_cons]]
      omega

/-- C9 counterexample: a series of exactly two points one day apart is
classified "D" by `detect_frequency`, not "M"; only series with fewer
than two points default to "M". -/
theorem detect_frequency_two_points_counterexample :
    detect_frequency [0, 1] = "D" ∧ ("D" : String) ≠ "M" ∧
    ([0, 1] : List ℕ).length = 2 := by decide

/-- C9 amended: `detect_frequency` returns "M" for fewer than two points;
for a series of at least two points (sorted, as a series is) it returns
the range code of the truncated average inter-date gap, which telescopes
to (last - first) divided by (count - 1): "D" for a gap of at most 2
days, "W" at most 10, "M" at most 45, "Q" at most 120, "A" otherwise. -/
theorem detect_frequency_spec (dates : List ℕ) :
    (dates.length < 2 → detect_frequency dates = "M") ∧
    (2 ≤ dates.length → List.Sorted (· ≤ ·) dates →
      detect_frequency dates =
        freq_of_avg_days ((dates.getLastD 0 - dates.headD 0) /
          (dates.length - 1))) := by
  constructor
  · intro hlen
    unfold detect_frequency
    rw [if_pos]
    rwa [(List.mergeSort_perm dates _).length_eq]
  · intro hlen hs
    unfold detect_frequency
    rw [List.mergeSort_eq_self hs]
    rw [if_neg (by omega)]
    cases dates with
    | nil => simp at hlen
    | cons a t =>
        rw [consecutive_diffs_sum t a hs, consecutive_diffs_length]
        rfl

/-- C9 witness: three monthly points resolve to "M" through the average
gap of 30 days. -/
theorem detect_frequency_spec_witness :
    detect_frequency [0, 30, 60] =
      freq_of_avg_days ((([0, 30, 60] : List ℕ).getLastD 0 -
        ([0, 30, 60] : List ℕ).headD 0) / (([0, 30, 60] : List ℕ).length - 1)) :=
  (detect_frequency_spec [0, 30, 60]).2 (by decide) (by decide)

/-- Looking a name up in a value-mapped weight dict maps the lookup. -/
theorem lookup_weight_map_div (l : List (String × ℚ)) (c : ℚ) (n : String) :
    lookup_weight (l.map (fun kv => (kv.1, kv.2 / c))) n =
      (lookup_weight l n).map (fun x => x / c) := by
  induction l with
  | nil => rfl
  | cons kv t ih =>
      unfold lookup_weight
      cases h : (kv.1 == n) with
      | true =>
          rw [List.map_cons, List.find?_cons_of_pos _ (by exact h),
            List.find?_cons_of_pos _ (by exact h)]
          rfl
      | false =>
          rw [List.map_cons, List.find?_cons_of_neg _ (by simp [h]),
            List.find?_cons_of_neg _ (by simp only [h]; exact Bool.false_ne_true)]
          exact ih

/-- Finding a key in a keyed map over a list containing it returns the
entry at that key. -/
theorem find?_map_of_mem {ks : List ℕ} {d : ℕ} (g : ℕ → ℚ) (hd : d ∈ ks) :
    (ks.map (fun k => (k, g k))).find? (fun p => p.1 == d) = some (d, g d) := by
  induction ks with
  | nil => cases hd
  | cons k t ih =>
      by_cases h : k = d
      · subst h
        rw [List.map_cons, List.find?_cons_of_pos _ (by simp)]
      · rcases List.mem_cons.1 hd with rfl | hmem
        · exact absurd rfl h
        · rw [List.map_cons, List.find?_cons_of_neg _ (by simp [h]), ih hmem]

/-- C10: the composite of `combine_factors` is indexed by exactly the
union of the pillar dates; at each such date every pillar contributes its
aligned value with NaN replaced by 0, multiplied by its globally
normalized weight (weight over the total of all configured weights, not
renormalized over the pillars observed at that date); consequently every
date at which at least one pillar has an entry carries a composite
value. -/
theorem combine_factors_spec (factors : List (String × List (ℕ × Option ℚ)))
    (weights : List (String × ℚ)) :
    ((combine_factors factors weights).map Prod.fst = union_dates factors) ∧
    (∀ d ∈ union_dates factors,
      (combine_factors factors weights).find? (fun p => p.1 == d) =
        some (d, (factors.map (fun nf =>
          match lookup_weight weights nf.1 with
          | some w => filled_value nf.2 d * (w / (weights.map Prod.snd).sum)
          | none => 0)).sum)) ∧
    (∀ nf ∈ factors, ∀ p ∈ nf.2,
      ∃ q ∈ combine_factors factors weights, q.1 = p.1) := by
  refine ⟨?_, ?_, ?_⟩
  · unfold combine_factors
    rw [List.map_map]
    exact List.map_id _
  · intro d hd
    have h1 := find?_map_of_mem
      (fun d2 => (factors.map (fun nf =>
        match lookup_weight (normalize_weights weights) nf.1 with
        | some w => filled_value nf.2 d2 * w
        | none => 0)).sum) hd
    refine Eq.trans h1 ?_
    rw [Option.some.injEq, Prod.mk.injEq]
    refine ⟨rfl, congrArg List.sum (List.map_congr_left ?_)⟩
    intro nf _
    have h2 : lookup_weight (normalize_weights weights) nf.1 =
        (lookup_weight weights nf.1).map
          (fun x => x / (weights.map Prod.snd).sum) :=
      lookup_weight_map_div weights _ nf.1
    rw [h2]
    cases lookup_weight weights nf.1 with
    | none => rfl
    | some w => rfl
  · intro nf hnf p hp
    have hd : p.1 ∈ union_dates factors := by
      unfold union_dates
      rw [List.mem_mergeSort, List.mem_dedup, List.mem_flatten]
      exact ⟨nf.2.map Prod.fst, List.mem_map.2 ⟨nf, hnf, rfl⟩,
        List.mem_map.2 ⟨p, hp, rfl⟩⟩
    exact ⟨_, List.mem_map.2 ⟨p.1, hd, rfl⟩, rfl⟩

/-- C10 witness: with one pillar holding a NaN cell at date 1, the
composite at date 1 exists and is 0 (the NaN contributed 0). -/
theorem combine_factors_spec_witness :
    (combine_factors [("a", [(0, some 1), (1, none)])] [("a", 2)]).find?
        (fun p => p.1 == 1) = some (1, 0) :=
  ((combine_factors_spec [("a", [(0, some 1), (1, none)])] [("a", 2)]).2.1 1
    (by decide)).trans (by decide)

/-- The sample variance is nonnegative. -/
theorem sample_var_nonneg (l : List ℚ) : 0 ≤ sample_var l := by
  cases l with
  | nil => norm_num [sample_var, list_mean]
  | cons a t =>
      unfold sample_var
      apply div_nonneg
      · apply List.sum_nonneg
        intro x hx
        rcases List.mem_map.1 hx with ⟨y, _, rfl⟩
        positivity
      · have h1 : (1 : ℚ) ≤ ((a :: t).length : ℚ) := by
          exact_mod_cast Nat.succ_le_of_lt (List.length_pos.2 (by simp))
        linarith

/-- C5 counterexample: with exactly 20 in-regime observations the
per-regime Sharpe is null, although the claim requires a value whenever
the count is 20 or more, because the source guards with a strict
`len(regime_data) > 20`. -/
theorem sharpe_regime_at_twenty_counterexample :
    sharpe_by_regime (List.replicate 20 (⟨1 / 100, 0, "tight"⟩ : MergedRow))
      "tight" = none ∧
    (regime_rows (List.replicate 20 (⟨1 / 100, 0, "tight"⟩ : MergedRow))
      "tight").length = 20 ∧
    ¬ ((20 : ℕ) < 20) := by
  refine ⟨?_, by decide, by decide⟩
  unfold sharpe_by_regime
  rw [if_neg (by decide)]

/-- C5 amended: the per-regime Sharpe, return and volatility are null iff
the in-regime observation count is at most 20 (so a count of exactly 20
still yields null); when the count exceeds 20 and the in-regime excess
returns are not constant, the Sharpe equals mean/std times sqrt(252)
computed over exactly those in-regime excess returns. -/
theorem regime_stats_threshold_spec (rows : List MergedRow) (regime : String) :
    (sharpe_by_regime rows regime = none ↔
      (regime_rows rows regime).length ≤ 20) ∧
    (return_by_regime rows regime = none ↔
      (regime_rows rows regime).length ≤ 20) ∧
    (volatility_by_regime rows regime = none ↔
      (regime_rows rows regime).length ≤ 20) ∧
    (20 < (regime_rows rows regime).length →
      sample_var ((regime_rows rows regime).map excess_return) ≠ 0 →
      sharpe_by_regime rows regime =
        some ((list_mean ((regime_rows rows regime).map excess_return) : ℝ) /
          Real.sqrt (sample_var ((regime_rows rows regime).map excess_return)) *
          Real.sqrt 252)) := by
  refine ⟨?_, ?_, ?_, ?_⟩
  · by_cases hc : 20 < (regime_rows rows regime).length
    · unfold sharpe_by_regime
      rw [if_pos hc]
      exact iff_of_false (Option.some_ne_none _) (not_le.2 hc)
    · unfold sharpe_by_regime
      rw [if_neg hc]
      exact iff_of_true rfl (le_of_not_lt hc)
  · by_cases hc : 20 < (regime_rows rows regime).length
    · unfold return_by_regime
      rw [if_pos hc]
      exact iff_of_false (Option.some_ne_none _) (not_le.2 hc)
    · unfold return_by_regime
      rw [if_neg hc]
      exact iff_of_true rfl (le_of_not_lt hc)
  · by_cases hc : 20 < (regime_rows rows regime).length
    · unfold volatility_by_regime
      rw [if_pos hc]
      exact iff_of_false (Option.some_ne_none _) (not_le.2 hc)
    · unfold volatility_by_regime
      rw [if_neg hc]
      exact iff_of_true rfl (le_of_not_lt hc)
  · intro hc hv
    have hvpos : (0 : ℝ) <
        (sample_var ((regime_rows rows regime).map excess_return) : ℝ) := by
      exact_mod_cast lt_of_le_of_ne (sample_var_nonneg _) (Ne.symm hv)
    have hstd : sample_std ((regime_rows rows regime).map excess_return) ≠ 0 := by
      unfold sample_std
      rw [Real.sqrt_ne_zero']
      exact hvpos
    unfold sharpe_by_regime
    rw [if_pos hc]
    unfold compute_sharpe
    rw [if_neg (by
      rw [List.length_map]
      omega), if_neg hstd]
    rfl

/-- C5 witness: on 21 in-regime rows with non-constant excess returns the
per-regime Sharpe is present and equals the mean/std formula over those
rows. -/
theorem regime_stats_threshold_spec_witness :
    sharpe_by_regime
        (List.replicate 11 (⟨0, 0, "tight"⟩ : MergedRow) ++
          List.replicate 10 (⟨1, 0, "tight"⟩ : MergedRow)) "tight" =
      some ((list_mean ((regime_rows
          (List.replicate 11 (⟨0, 0, "tight"⟩ : MergedRow) ++
            List.replicate 10 (⟨1, 0, "tight"⟩ : MergedRow)) "tight").map
          excess_return) : ℝ) /
        Real.sqrt (sample_var ((regime_rows
          (List.replicate 11 (⟨0, 0, "tight"⟩ : MergedRow) ++
            List.replicate 10 (⟨1, 0, "tight"⟩ : MergedRow)) "tight").map
          excess_return)) * Real.sqrt 252) :=
  (regime_stats_threshold_spec _ "tight").2.2.2 (by decide) (by decide)

/-- Every month has at least one day. -/
theorem daysInMonth_pos (y m : ℕ) : 1 ≤ daysInMonth y m := by
  unfold daysInMonth
  split_ifs <;> norm_num

/-- Cumulative month lengths: the days before month `m + 1` are the days
before month `m` plus the length of month `m`. -/
theorem daysBeforeMonth_succ (y m : ℕ) (h1 : 1 ≤ m) (h2 : m ≤ 11) :
    daysBeforeMonth y (m + 1) = daysBeforeMonth y m + daysInMonth y m := by
  interval_cases m <;> cases hL : isLeap y <;>
    simp [daysBeforeMonth, daysInMonth, hL]

set_option maxHeartbeats 1000000 in
/-- The day count of the calendar successor is one more. -/
theorem toDays_nextDay (d : Date) (h : d.Valid) :
    toDays (nextDay d) = toDays d + 1 := by
  obtain ⟨hy, hm1, hm2, hd1, hd2⟩ := h
  unfold nextDay
  split_ifs with h1 h2
  · simp only [toDays]
    omega
  · have hday : d.day = daysInMonth d.year d.month :=
      le_antisymm hd2 (not_lt.1 h1)
    have hstep := daysBeforeMonth_succ d.year d.month hm1 (by omega)
    simp only [toDays]
    omega
  · have hm : d.month = 12 := by omega
    have hday : d.day = daysInMonth d.year d.month :=
      le_antisymm hd2 (not_lt.1 h1)
    have hdim : daysInMonth d.year 12 = 31 := by norm_num [daysInMonth]
    have hb1 : daysBeforeMonth (d.year + 1) 1 = 0 := by norm_num [daysBeforeMonth]
    have hday31 : d.day = 31 := by
      rw [hm] at hday
      rw [hday, hdim]
    by_cases hL : isLeap d.year = true
    · have hb12 : daysBeforeMonth d.year 12 = 335 := by
        norm_num [daysBeforeMonth, hL]
      have hdivs : (d.year % 4 = 0 ∧ d.year % 100 ≠ 0) ∨ d.year % 400 = 0 := by
        simpa [isLeap, Bool.or_eq_true, Bool.and_eq_true, beq_iff_eq,
          bne_iff_ne] using hL
      simp only [toDays, hm]
      rw [hb1, hb12]
      omega
    · have hb12 : daysBeforeMonth d.year 12 = 334 := by
        simp [daysBeforeMonth, hL]
      have hdivs : ¬ ((d.year % 4 = 0 ∧ d.year % 100 ≠ 0) ∨
          d.year % 400 = 0) := by
        simpa [isLeap, Bool.or_eq_true, Bool.and_eq_true, beq_iff_eq,
          bne_iff_ne] using hL
      simp only [toDays, hm]
      rw [hb1, hb12]
      omega

/-- The calendar successor of a valid date is valid. -/
theorem valid_nextDay (d : Date) (h : d.Valid) : (nextDay d).Valid := by
  obtain ⟨hy, hm1, hm2, hd1, hd2⟩ := h
  unfold nextDay
  split_ifs with h1 h2
  · exact ⟨hy, hm1, hm2, by show 1 ≤ d.day + 1; omega,
      by show d.day + 1 ≤ daysInMonth d.year d.month; omega⟩
  · exact ⟨hy, by show 1 ≤ d.month + 1; omega,
      by show d.month + 1 ≤ 12; omega, le_refl 1, daysInMonth_pos _ _⟩
  · exact ⟨by show 1 ≤ d.year + 1; omega, by show (1 : ℕ) ≤ 1; norm_num,
      by show (1 : ℕ) ≤ 12; norm_num, le_refl 1, daysInMonth_pos _ _⟩

/-- Iterating the calendar successor preserves validity and advances the
day count by the iteration count. -/
theorem toDays_iterate (k : ℕ) (d : Date) (h : d.Valid) :
    (nextDay^[k] d).Valid ∧ toDays (nextDay^[k] d) = toDays d + k := by
  induction k with
  | zero => exact ⟨h, rfl⟩
  | succ n ih =>
      rw [Function.iterate_succ_apply']
      exact ⟨valid_nextDay _ ih.1, by rw [toDays_nextDay _ ih.1, ih.2]; omega⟩

/-- The weekly period end lands on a Friday (day count 4 modulo 7). -/
theorem weekEndFriday_mod (d : Date) (h : d.Valid) :
    toDays (weekEndFriday d) % 7 = 4 := by
  have ht := (toDays_iterate (fridayOffset d) d h).2
  unfold weekEndFriday
  rw [ht]
  unfold fridayOffset
  omega

/-- The weekly period end is idempotent. -/
theorem weekEndFriday_idem (d : Date) (h : d.Valid) :
    weekEndFriday (weekEndFriday d) = weekEndFriday d := by
  have h4 := weekEndFriday_mod d h
  have hoff : fridayOffset (weekEndFriday d) = 0 := by
    unfold fridayOffset
    omega
  show nextDay^[fridayOffset (weekEndFriday d)] (weekEndFriday d) =
    weekEndFriday d
  rw [hoff]
  rfl

/-- The closing month of a quarter closes its own quarter. -/
theorem quarterEndMonth_idem (m : ℕ) :
    quarterEndMonth (quarterEndMonth m) = quarterEndMonth m := by
  unfold quarterEndMonth
  omega

/-- Every period-end label is a fixed point of its own period-end map:
the label of a label is itself, for each of the five frequencies. -/
theorem periodEnd_idem (f : Freq) (d : Date) (h : d.Valid) :
    periodEnd f (periodEnd f d) = periodEnd f d := by
  cases f with
  | D => rfl
  | W => exact weekEndFriday_idem d h
  | M => rfl
  | Q =>
      show quarterEnd (quarterEnd d) = quarterEnd d
      unfold quarterEnd
      simp only
      rw [quarterEndMonth_idem]
  | A => rfl

/-- The keys of a keyed `filterMap` are the surviving keys in order. -/
theorem map_fst_filterMap_val {β : Type} (ks : List Date)
    (h : Date → Option β) :
    ((ks.filterMap (fun k => (h k).map (fun v => (k, v)))).map Prod.fst) =
      ks.filter (fun k => (h k).isSome) := by
  induction ks with
  | nil => rfl
  | cons k t ih =>
      cases hk : h k with
      | none => simp [List.filterMap_cons, hk, List.filter_cons, ih]
      | some v => simp [List.filterMap_cons, hk, List.filter_cons, ih]

/-- A `filterMap` that always succeeds is a `map`. -/
theorem filterMap_congr_map {α β : Type} (ks : List α) (g : α → Option β)
    (e : α → β) (h : ∀ k ∈ ks, g k = some (e k)) :
    ks.filterMap g = ks.map e := by
  induction ks with
  | nil => rfl
  | cons k t ih =>
      rw [List.filterMap_cons, h k (List.mem_cons_self _ _), List.map_cons,
        ih (fun x hx => h x (List.mem_cons_of_mem _ hx))]

/-- In a table with pairwise distinct keys, filtering on the key of a
member returns exactly that member. -/
theorem filter_eq_singleton_of_nodup_keys (r : List (Date × ℚ))
    (hnd : (r.map Prod.fst).Nodup) (q : Date × ℚ) (hmem : q ∈ r) :
    r.filter (fun p => p.1 == q.1) = [q] := by
  induction r with
  | nil => cases hmem
  | cons a t ih =>
      have hnd2 := hnd
      rw [List.map_cons, List.nodup_cons] at hnd2
      rcases List.mem_cons.1 hmem with rfl | hmem2
      · rw [List.filter_cons_of_pos (by simp)]
        have hnil : t.filter (fun p => p.1 == q.1) = [] := by
          rw [List.filter_eq_nil_iff]
          intro p hp
          simp only [beq_iff_eq]
          intro hc
          exact hnd2.1 (hc ▸ List.mem_map.2 ⟨p, hp, rfl⟩)
        rw [hnil]
      · have hne : ¬ (a.1 == q.1) = true := by
          simp only [beq_iff_eq]
          intro hc
          exact hnd2.1 (hc ▸ List.mem_map.2 ⟨q, hmem2, rfl⟩)
        rw [List.filter_cons, if_neg hne]
        exact ih hnd2.2 hmem2

/-- The labels of the kept bins are fixed points of the period-end map,
in sorted order without duplicates, and the output dates of a resample
are a sublist of them. -/
theorem resample_keys_facts (l : List (Date × Option ℚ)) (f : Freq)
    (hv : ∀ p ∈ l, Date.Valid p.1) :
    (∀ k ∈ resample_keys l f, periodEnd f k = k) ∧
    List.Pairwise (fun a b => decide (toDays a ≤ toDays b) = true)
      (resample_keys l f) ∧
    (resample_keys l f).Nodup ∧
    ((resample_last l f).map Prod.fst).Sublist (resample_keys l f) := by
  refine ⟨?_, ?_, ?_, ?_⟩
  · intro k hk
    rcases List.mem_map.1 (List.mem_dedup.1 (List.mem_mergeSort.1 hk)) with
      ⟨p, hp, rfl⟩
    exact periodEnd_idem f p.1 (hv p hp)
  · exact List.sorted_mergeSort
      (fun a b c hab hbc => by
        rw [decide_eq_true_eq] at hab hbc ⊢
        exact le_trans hab hbc)
      (fun a b => by
        rcases Nat.le_total (toDays a) (toDays b) with hab | hab <;>
          simp [hab])
      _
  · exact ((List.mergeSort_perm _ _).nodup_iff).2 (List.nodup_dedup _)
  · have hfst : (resample_last l f).map Prod.fst =
        (resample_keys l f).filter (fun k => (bin_last l f k).isSome) :=
      map_fst_filterMap_val (resample_keys l f) (bin_last l f)
    rw [hfst]
    exact List.filter_sublist _

/-- C8: resampling with `agg="last"` is idempotent: resampling an already
resampled table at the same target frequency returns it unchanged, for
every input table of valid calendar dates and every target frequency. -/
theorem resample_last_idempotent (l : List (Date × Option ℚ)) (f : Freq)
    (hv : ∀ p ∈ l, Date.Valid p.1) :
    resample_last (lift_table (resample_last l f)) f = resample_last l f := by
  obtain ⟨hpe, hsorted, hnodup, hsub⟩ := resample_keys_facts l f hv
  have hnodup2 : ((resample_last l f).map Prod.fst).Nodup := hsub.nodup hnodup
  have hsorted2 : List.Pairwise
      (fun a b => decide (toDays a ≤ toDays b) = true)
      ((resample_last l f).map Prod.fst) := hsorted.sublist hsub
  have hpe2 : ∀ k ∈ (resample_last l f).map Prod.fst, periodEnd f k = k :=
    fun k hk => hpe k (hsub.subset hk)
  have hkeys2 : resample_keys (lift_table (resample_last l f)) f =
      (resample_last l f).map Prod.fst := by
    unfold resample_keys
    have s1 : (lift_table (resample_last l f)).map (fun p => periodEnd f p.1) =
        (resample_last l f).map (fun p => periodEnd f p.1) := by
      unfold lift_table
      rw [List.map_map]
      rfl
    have s2 : (resample_last l f).map (fun p => periodEnd f p.1) =
        (resample_last l f).map Prod.fst :=
      List.map_congr_left (fun p hp => hpe2 p.1 (List.mem_map.2 ⟨p, hp, rfl⟩))
    rw [s1, s2, List.dedup_eq_self.2 hnodup2]
    exact List.mergeSort_of_sorted hsorted2
  have hbin2 : ∀ q ∈ resample_last l f,
      bin_last (lift_table (resample_last l f)) f q.1 = some q.2 := by
    intro q hq
    unfold bin_last
    have hfc : (lift_table (resample_last l f)).filter
        (fun p => periodEnd f p.1 == q.1) =
        ((resample_last l f).filter (fun p => p.1 == q.1)).map
          (fun p => (p.1, some p.2)) := by
      unfold lift_table
      rw [List.filter_map]
      congr 1
      apply List.filter_congr
      intro p hp
      show (periodEnd f p.1 == q.1) = (p.1 == q.1)
      rw [hpe2 p.1 (List.mem_map.2 ⟨p, hp, rfl⟩)]
    rw [hfc, filter_eq_singleton_of_nodup_keys _ hnodup2 q hq]
    rfl
  show (resample_keys (lift_table (resample_last l f)) f).filterMap
      (fun k => (bin_last (lift_table (resample_last l f)) f k).map
        (fun v => (k, v))) = resample_last l f
  rw [hkeys2, List.filterMap_map]
  refine (filterMap_congr_map (resample_last l f)
    ((fun k => (bin_last (lift_table (resample_last l f)) f k).map
      (fun v => (k, v))) ∘ Prod.fst) id ?_).trans (List.map_id _)
  intro q hq
  show (bin_last (lift_table (resample_last l f)) f q.1).map
    (fun v => (q.1, v)) = some q
  rw [hbin2 q hq]
  rfl

/-- C8 witness: a two-point weekly table of valid dates is unchanged by a
second weekly resample. -/
theorem resample_last_idempotent_witness :
    resample_last (lift_table (resample_last
      [(⟨2020, 1, 6⟩, some 1), (⟨2020, 1, 8⟩, some 2),
        (⟨2020, 1, 14⟩, none)] Freq.W)) Freq.W =
    resample_last [(⟨2020, 1, 6⟩, some 1), (⟨2020, 1, 8⟩, some 2),
      (⟨2020, 1, 14⟩, none)] Freq.W :=
  resample_last_idempotent _ Freq.W (by decide)

/-- C6 witness for the amended statement: at date 0 the surviving row of
a two-row collision is the delta row, the last one concatenated. -/
theorem append_raw_spec_witness :
    (append_raw (some [(⟨0, 10, 1⟩ : RawRow)]) [(⟨0, 5, 2⟩ : RawRow)]).filter
        (fun r => r.date == 0) =
      ((([(⟨0, 10, 1⟩ : RawRow)] ++ [(⟨0, 5, 2⟩ : RawRow)]).filter
        (fun r => r.date == 0)).getLast?).toList :=
  (append_raw_spec [(⟨0, 10, 1⟩ : RawRow)] [(⟨0, 5, 2⟩ : RawRow)]).1 0

end GLCT
